import Mathlib

/-!
Shallow embedding of the waveform acquisition pipeline of the
rohdescope library (rohdescope/connection.py): the binary block
parser, the channel demultiplexer, the raw-sample-to-physical-unit
converter, the busy-wait synchronization loop, connection management
and command-string formatting.  Raw instrument responses are modelled
as lists of byte values; Python exceptions are modelled as `none`;
floating point arithmetic is modelled over `ℚ`.
-/

/-- Sample types derived from the per-family `data_format` attribute:
`ScopeConnection.data_format = "uint8"`, `RTMConnection` uses `"UINT,8"`
(dtype `uint8` after the replace/lower step in `parse_waveform_string`),
and `RTOConnection` uses `"INT,8"` (dtype `int8`). -/
inductive SampleType
  | uint8
  | int8
deriving DecidableEq

/-- The `numpy.iinfo` minimum for the sample dtype. -/
def SampleType.imin : SampleType → Int
  | .uint8 => 0
  | .int8 => -128

/-- The `numpy.iinfo` maximum for the sample dtype. -/
def SampleType.imax : SampleType → Int
  | .uint8 => 255
  | .int8 => 127

/-- Decoding of one raw byte by `numpy.fromstring` for the given dtype. -/
def SampleType.decode : SampleType → Nat → Int
  | .uint8, b => Int.ofNat b
  | .int8, b => if b < 128 then Int.ofNat b else Int.ofNat b - 256

/-- Python `int(c)` on a single character (used on `string[1]`):
succeeds exactly on an ASCII digit. -/
def digitVal (b : Nat) : Option Nat :=
  if 48 ≤ b ∧ b ≤ 57 then some (b - 48) else none

/-- Python `int(s)` on a byte-string slice (used on
`string[2:2+data_length_length]`): succeeds on a non-empty all-digit
string and returns its decimal value. -/
def parseDecimal (l : List Nat) : Option Nat :=
  if l = [] then none
  else l.foldl (fun acc b => acc.bind (fun a => (digitVal b).map (fun d => a * 10 + d))) (some 0)

/-- Core of Python extended slicing `s[a:b:c]`: keep one element, skip
`c - 1`, repeat.  The counter argument is the number of elements still
to be skipped before the next kept element. -/
def everyNthAux (step : Nat) : List α → Nat → List α
  | [], _ => []
  | a :: rest, 0 => a :: everyNthAux step rest (step - 1)
  | _ :: rest, k + 1 => everyNthAux step rest k

/-- Every `step`-th element of a list, starting with the first. -/
def everyNth (step : Nat) (l : List α) : List α := everyNthAux step l 0

/-- Python slice `l[start:stop:step]` for non-negative bounds and a
positive step: bounds are clamped, never out of range. -/
def pySlice (l : List α) (start stop step : Nat) : List α :=
  everyNth step ((l.take stop).drop start)

/-- Python dict assignment `d[k] = v` on an insertion-ordered
dictionary: overwrite in place if the key is present, append
otherwise. -/
def dictSet (d : List (Nat × α)) (k : Nat) (v : α) : List (Nat × α) :=
  if d.any (fun p => p.1 == k) then
    d.map (fun p => if p.1 == k then (k, v) else p)
  else d ++ [(k, v)]

/-- The `for index, channel in enumerate(channels)` loop of
`ScopeConnection.parse_waveform_string`: channel at position `i`
receives the slice `string[i:data_length:channel_number]` decoded by
`numpy.fromstring`. -/
def demuxLoop (fmt : SampleType) (rest : List Nat) (dl n : Nat) :
    Nat → List Nat → List (Nat × List Int) → List (Nat × List Int)
  | _, [], acc => acc
  | i, c :: tl, acc =>
    demuxLoop fmt rest dl n (i + 1) tl
      (dictSet acc c ((pySlice rest i dl n).map fmt.decode))

/-- Embedding of `ScopeConnection.parse_waveform_string`: the input is
the raw instrument response as a byte list, the result is the
channel-indexed dictionary of decoded samples, and `none` models a
Python exception escaping the call. -/
def parse_waveform_string (fmt : SampleType) (channels : List Nat)
    (string : List Nat) : Option (List (Nat × List Int)) :=
  if channels = [] ∨ string = [] then some [] else
  (string[1]?.bind digitVal).bind (fun dll =>
    (parseDecimal ((string.take (2 + dll)).drop 2)).map (fun dl =>
      demuxLoop fmt (string.drop (2 + dll)) dl channels.length 0 channels []))

/-- Positional specification form of the demultiplexing loop: a plain
map over the channels with their request-order index, equal to
`demuxLoop` when the requested channels are duplicate-free. -/
def demuxSpec (fmt : SampleType) (rest : List Nat) (dl n : Nat) :
    Nat → List Nat → List (Nat × List Int)
  | _, [] => []
  | i, c :: tl =>
    (c, (pySlice rest i dl n).map fmt.decode) :: demuxSpec fmt rest dl n (i + 1) tl

/-- Helper for `decBytes`: little-endian decimal digits (as ASCII
bytes) of a positive number, with an explicit fuel argument so that the
recursion is structural. -/
def decBytesAux : Nat → Nat → List Nat
  | 0, _ => []
  | _, 0 => []
  | fuel + 1, n + 1 => ((n + 1) % 10 + 48) :: decBytesAux fuel ((n + 1) / 10)

/-- ASCII bytes of the decimal representation of `n`, most significant
digit first (Python `str(n)`). -/
def decBytes (n : Nat) : List Nat :=
  if n = 0 then [48] else (decBytesAux n n).reverse

/-- Modelled from the spec: the binary block framing format produced by
the instrument, of which the repository contains only the decoder — a
marker byte `#`, a single length-of-length digit, the ASCII decimal
payload length, then the raw payload bytes. -/
def encodeBlock (payload : List Nat) : List Nat :=
  35 :: (48 + (decBytes payload.length).length) :: (decBytes payload.length ++ payload)

/-- Python `result.update(dct)` on insertion-ordered dictionaries. -/
def dictUpdate (d : List (Nat × α)) (e : List (Nat × α)) : List (Nat × α) :=
  e.foldl (fun acc p => dictSet acc p.1 p.2) d

/-- The `for channel, string in zip(channels, strings)` loop of
`RTMConnection.parse_waveform_string`. -/
def RTMLoop : List (Nat × List Nat) → List (Nat × List Int) → Option (List (Nat × List Int))
  | [], acc => some acc
  | (c, s) :: tl, acc =>
    (parse_waveform_string SampleType.uint8 [c] s).bind (fun dct =>
      RTMLoop tl (dictUpdate acc dct))

/-- Embedding of `RTMConnection.parse_waveform_string`: one payload per
channel, paired with the requested channels by `zip`, each payload
decoded by the parent parser for a single channel. -/
def RTM_parse_waveform_string (channels : List Nat) (strings : List (List Nat)) :
    Option (List (Nat × List Int)) :=
  RTMLoop (channels.zip strings) []

/-- The median of the raw sample range, computed exactly as
`convert_waveforms` does: `(info.max + info.min) * 0.5`. -/
def medianOf (fmt : SampleType) : ℚ := ((fmt.imax + fmt.imin : Int) : ℚ) * (1 / 2)

/-- The division-mode conversion factor of `convert_waveforms`:
`10.0 / (info.max - info.min)`. -/
def factorOf (fmt : SampleType) : ℚ := 10 / (((fmt.imax - fmt.imin : Int) : ℚ))

/-- The per-sample affine map applied by `convert_waveforms`:
`(data - data_median) * factor - position`. -/
def convertSample (median factor off x : ℚ) : ℚ := (x - median) * factor - off

/-- Embedding of `ScopeConnection.convert_waveforms`.  The scale and
position dictionaries are modelled as optional total maps from channel
numbers to rationals; `none` as a result models the Python `TypeError`
raised by subscripting `scales` when it is `None` (no partial result is
returned, as the exception aborts the loop). -/
def convert_waveforms (fmt : SampleType) (scales positions : Option (Nat → ℚ)) :
    List (Nat × List Int) → Option (List (Nat × List ℚ))
  | [] => some []
  | (c, data) :: rest =>
    let factor : ℚ := match scales with
      | none => factorOf fmt
      | some s => factorOf fmt * s c
    let offOpt : Option ℚ := match positions with
      | none => some 0
      | some q =>
        match scales with
        | none => none
        | some s => some (q c * s c)
    offOpt.bind (fun off =>
      (convert_waveforms fmt scales positions rest).map (fun r =>
        (c, data.map (fun v => convertSample (medianOf fmt) factor off ((v : Int) : ℚ))) :: r))

/-- Outcome of the busy-wait loop in `ScopeConnection.wait`, carrying
the number of `*ESR?` polls performed.  `timedOut` models the raised
`Vxi11Exception(15, "wait")`, the acquisition-timeout error. -/
inductive WaitOutcome
  | completed (polls : Nat)
  | timedOut (polls : Nat)
deriving DecidableEq

/-- The `while not finished()` loop of `ScopeConnection.wait` in busy
mode.  `esr k` is the value returned by the `k`-th `*ESR?` query,
`clock k` the value of the `time()` call made right after the `k`-th
unsuccessful poll, and `deadline` the timeout bound computed before the
loop.  The fuel argument bounds the number of iterations modelled;
`none` means the loop was still running after `fuel` polls. -/
def waitBusyLoop (esr : Nat → Nat) (clock : Nat → ℚ) (deadline : ℚ) :
    Nat → Nat → Option WaitOutcome
  | 0, _ => none
  | fuel + 1, k =>
    if esr k % 2 = 1 then some (WaitOutcome.completed (k + 1))
    else if deadline < clock k then some (WaitOutcome.timedOut (k + 1))
    else waitBusyLoop esr clock deadline fuel (k + 1)

/-- The deadline computed once at the start of the busy wait:
`instrument_timeout / 1000.0` plus the current time. -/
def waitDeadline (tstart timeoutMs : ℚ) : ℚ := timeoutMs / 1000 + tstart

/-- Embedding of the busy branch of `ScopeConnection.wait`: compute the
deadline from the configured instrument timeout and the start time,
then poll. -/
def wait_busy (esr : Nat → Nat) (clock : Nat → ℚ) (tstart timeoutMs : ℚ)
    (fuel : Nat) : Option WaitOutcome :=
  waitBusyLoop esr clock (waitDeadline tstart timeoutMs) fuel 0

/-- The mutable connection state of `ScopeConnection` relevant to
`connect`: whether the vxi11 transport handle exists, the cached
firmware version, plus instrumentation counting the `*IDN?` handshakes
issued by `get_firmware_version` and the runs of `configure`. -/
structure ConnState where
  scope : Bool
  firmware : Option (List Nat)
  idnCount : Nat
  configCount : Nat
deriving DecidableEq

/-- Python truthiness of `self.firmware_version` (`None` and the empty
tuple are falsy). -/
def fwTruthy : Option (List Nat) → Bool
  | none => false
  | some l => !l.isEmpty

/-- Embedding of the `ScopeConnection.connected` property:
`self.scope and self.firmware_version`. -/
def ConnState.connectedB (s : ConnState) : Bool := s.scope && fwTruthy s.firmware

/-- Embedding of `ScopeConnection.connect`, parameterized by the
firmware version `fw` that parsing the instrument's `*IDN?` response
would produce. -/
def connect (fw : List Nat) (s : ConnState) : ConnState :=
  let wasConnected := s.connectedB
  let s1 : ConnState := if s.scope then s else ⟨true, s.firmware, s.idnCount, s.configCount⟩
  let s2 : ConnState :=
    if fwTruthy s1.firmware then s1
    else ⟨s1.scope, some fw, s1.idnCount + 1, s1.configCount⟩
  if wasConnected then s2 else ⟨s2.scope, s2.firmware, s2.idnCount, s2.configCount + 1⟩

/-- A freshly constructed `ScopeConnection`: no transport handle, no
cached firmware version. -/
def freshConn : ConnState := ⟨false, none, 0, 0⟩

/-- Numeric value of a positional field name in a format string. -/
def parseFieldIdx (field : List Char) : Nat :=
  field.foldl (fun a c => a * 10 + (c.toNat - 48)) 0

/-- Worker for `pyFormat`: the Boolean flag records whether we are
inside a replacement field, the accumulator collects the field name. -/
def pyFormatGo (args : List (List Char)) : Bool → List Char → List Char → List Char
  | _, _, [] => []
  | false, acc, c :: rest =>
    if c = '\x7b' then pyFormatGo args true [] rest
    else c :: pyFormatGo args false acc rest
  | true, acc, c :: rest =>
    if c = '\x7d' then (args.getD (parseFieldIdx acc) []) ++ pyFormatGo args false [] rest
    else pyFormatGo args true (acc ++ [c]) rest

/-- Python `str.format` restricted to positional replacement fields,
which is all the repository uses.  Text outside replacement fields —
including a percent-style placeholder such as `%s` — is copied to the
output verbatim. -/
def pyFormat (t : List Char) (args : List (List Char)) : List Char :=
  pyFormatGo args false [] t

/-- Python `str(n)` as a character list. -/
def decChars (n : Nat) : List Char := (decBytes n).map Char.ofNat

/-- The command string built by `ScopeConnection.get_channel_range`:
the template uses a percent placeholder but is passed to
`str.format`. -/
def get_channel_range_cmd (channel : Nat) : List Char :=
  pyFormat ("CHAN%s:RANGe?".toList) [decChars channel]

/-- The command string built by `ScopeConnection.get_channel_offset`. -/
def get_channel_offset_cmd (channel : Nat) : List Char :=
  pyFormat ("CHAN{0}:OFFSet?".toList) [decChars channel]

/-- The command string built by `ScopeConnection.get_channel_scale`. -/
def get_channel_scale_cmd (channel : Nat) : List Char :=
  pyFormat ("CHAN{0}:SCALe?".toList) [decChars channel]

/-- Atomic events observable at the lock/transport boundary: lock
acquisition and release, and the transport-level write and read that a
vxi11 `ask` performs back to back. -/
inductive Ev
  | acq
  | rel
  | tw
  | tr
deriving DecidableEq

/-- The event trace of `ScopeConnection.ask` (and of the lock-guarded
write/read_raw pair in `RTMConnection.get_waveform_string`): acquire
the lock, write the command, read the response, release the lock. -/
def askProg : List Ev := [Ev.acq, Ev.tw, Ev.tr, Ev.rel]

/-- The event trace of `ScopeConnection.write`: acquire the lock, write
the command, release the lock. -/
def writeProg : List Ev := [Ev.acq, Ev.tw, Ev.rel]

/-- Interleaving state of several threads sharing one connection:
the rest of each thread's event program, and the current lock holder. -/
structure Sys where
  rem : List (List Ev)
  holder : Option Nat
deriving DecidableEq

/-- One scheduler step: some thread `i` performs the next event of its
program.  `threading.Lock` semantics: an acquire succeeds only when the
lock is free, a release is performed by the holder; transport events
carry no side condition of their own — mutual exclusion of transport
calls must come from the programs. -/
inductive Step : Sys → Nat → Ev → Sys → Prop
  | acq (s : Sys) (i : Nat) (rest : List Ev) :
      s.rem[i]? = some (Ev.acq :: rest) → s.holder = none →
      Step s i Ev.acq ⟨s.rem.set i rest, some i⟩
  | rel (s : Sys) (i : Nat) (rest : List Ev) :
      s.rem[i]? = some (Ev.rel :: rest) → s.holder = some i →
      Step s i Ev.rel ⟨s.rem.set i rest, none⟩
  | tw (s : Sys) (i : Nat) (rest : List Ev) :
      s.rem[i]? = some (Ev.tw :: rest) →
      Step s i Ev.tw ⟨s.rem.set i rest, s.holder⟩
  | tr (s : Sys) (i : Nat) (rest : List Ev) :
      s.rem[i]? = some (Ev.tr :: rest) →
      Step s i Ev.tr ⟨s.rem.set i rest, s.holder⟩

/-- States reachable from the start state in which every thread still
has its whole program to run and the lock is free. -/
inductive Reach (ps : List (List Ev)) : Sys → Prop
  | init : Reach ps ⟨ps, none⟩
  | step {s : Sys} {i : Nat} {e : Ev} {t : Sys} :
      Reach ps s → Step s i e t → Reach ps t

/-- The program remainders a thread can have while it holds the lock:
strictly inside the acquire/release region of `askProg` or
`writeProg`. -/
def lockedRem (l : List Ev) : Prop :=
  l = [Ev.tw, Ev.tr, Ev.rel] ∨ l = [Ev.tr, Ev.rel] ∨ l = [Ev.tw, Ev.rel] ∨ l = [Ev.rel]

/-- The program remainders reachable at all: a full program, a
lock-holding remainder, or a finished thread. -/
def validRem (l : List Ev) : Prop :=
  l = [] ∨ l = askProg ∨ l = writeProg ∨ lockedRem l

/-- Lock invariant: every thread's remainder is reachable, and a thread
is strictly inside its acquire/release region exactly when it is the
recorded lock holder. -/
def SysInv (s : Sys) : Prop :=
  (∀ (i : Nat) (li : List Ev), s.rem[i]? = some li → validRem li) ∧
  (∀ (i : Nat) (li : List Ev), s.rem[i]? = some li → (lockedRem li ↔ s.holder = some i))

/-! Lemmas about slicing. -/

theorem everyNthAux_eq_drop (step : Nat) :
    ∀ (l : List α) (k : Nat), everyNthAux step l k = everyNth step (l.drop k) := by
  intro l
  induction l with
  | nil => intro k; cases k <;> rfl
  | cons a t ih =>
    intro k
    cases k with
    | zero => rfl
    | succ k => exact ih k

theorem everyNth_nil (step : Nat) : everyNth step ([] : List α) = [] := rfl

theorem everyNth_cons (step : Nat) (a : α) (l : List α) :
    everyNth step (a :: l) = a :: everyNth step (l.drop (step - 1)) := by
  show a :: everyNthAux step l (step - 1) = a :: everyNth step (l.drop (step - 1))
  rw [everyNthAux_eq_drop]

theorem everyNth_one : ∀ l : List α, everyNth 1 l = l := by
  intro l
  induction l with
  | nil => rfl
  | cons a t ih => rw [everyNth_cons]; simp [ih]

theorem everyNth_length (step : Nat) (hstep : 1 ≤ step) :
    ∀ l : List α, (everyNth step l).length = (l.length + step - 1) / step := by
  have hnil : ((everyNth step ([] : List α)).length = (([] : List α).length + step - 1) / step) := by
    rw [everyNth_nil]
    simp only [List.length_nil, Nat.zero_add]
    rw [Nat.div_eq_of_lt (by omega)]
  have key : ∀ (n : Nat) (l : List α), l.length ≤ n →
      (everyNth step l).length = (l.length + step - 1) / step := by
    intro n
    induction n with
    | zero =>
      intro l hl
      have he : l = [] := List.eq_nil_of_length_eq_zero (Nat.le_zero.mp hl)
      subst he
      exact hnil
    | succ n ih =>
      intro l hl
      cases l with
      | nil => exact hnil
      | cons a t =>
        simp only [List.length_cons] at hl
        rw [everyNth_cons]
        have hrec := ih (t.drop (step - 1)) (by simp only [List.length_drop]; omega)
        simp only [List.length_cons, List.length_drop] at hrec ⊢
        rw [hrec]
        rcases le_or_lt (step - 1) t.length with hc | hc
        · have h1 : t.length - (step - 1) + step - 1 = t.length := by omega
          have h2 : t.length + 1 + step - 1 = t.length + step := by omega
          rw [h1, h2, Nat.add_div_right _ (by omega)]
        · have h1 : t.length - (step - 1) + step - 1 = step - 1 := by omega
          have h2 : t.length + 1 + step - 1 = t.length + step := by omega
          rw [h1, h2, Nat.add_div_right _ (by omega), Nat.div_eq_of_lt (by omega),
            Nat.div_eq_of_lt (by omega)]
  intro l
  exact key l.length l (Nat.le_refl _)

theorem everyNth_getElem? (step : Nat) (hstep : 1 ≤ step) :
    ∀ (l : List α) (k : Nat), (everyNth step l)[k]? = l[k * step]? := by
  have key : ∀ (n : Nat) (l : List α), l.length ≤ n →
      ∀ k, (everyNth step l)[k]? = l[k * step]? := by
    intro n
    induction n with
    | zero =>
      intro l hl k
      have : l = [] := List.eq_nil_of_length_eq_zero (Nat.le_zero.mp hl)
      subst this
      simp [everyNth_nil]
    | succ n ih =>
      intro l hl k
      cases l with
      | nil => simp [everyNth_nil]
      | cons a t =>
        simp only [List.length_cons] at hl
        rw [everyNth_cons]
        cases k with
        | zero => simp
        | succ k =>
          rw [List.getElem?_cons_succ]
          rw [ih (t.drop (step - 1)) (by simp only [List.length_drop]; omega) k]
          rw [List.getElem?_drop]
          have hm : (k + 1) * step = k * step + step := Nat.succ_mul k step
          have hidx : (k + 1) * step = (step - 1 + k * step) + 1 := by omega
          rw [hidx, List.getElem?_cons_succ]
  intro l
  exact key l.length l (Nat.le_refl _)

theorem pySlice_length (l : List α) (i step : Nat) (hstep : 1 ≤ step) :
    (pySlice l i l.length step).length = (l.length - i + step - 1) / step := by
  unfold pySlice
  rw [List.take_length, everyNth_length step hstep, List.length_drop]

theorem pySlice_getElem? (l : List α) (i step k : Nat) (hstep : 1 ≤ step) :
    (pySlice l i l.length step)[k]? = l[i + k * step]? := by
  unfold pySlice
  rw [List.take_length, everyNth_getElem? step hstep, List.getElem?_drop]

theorem pySlice_full (l : List α) : pySlice l 0 l.length 1 = l := by
  unfold pySlice
  rw [List.take_length, List.drop_zero, everyNth_one]

theorem pySlice_take (l : List α) (stop : Nat) : pySlice l 0 stop 1 = l.take stop := by
  unfold pySlice
  rw [List.drop_zero, everyNth_one]

theorem pySlice_append_stop (l extra : List α) (i step : Nat) :
    pySlice (l ++ extra) i l.length step = pySlice l i l.length step := by
  unfold pySlice
  rw [List.take_left, List.take_length]

/-! Lemmas about the decimal representation and its parsing. -/

theorem parseDecimal_foldl (l : List Nat) (hd : ∀ b ∈ l, 48 ≤ b ∧ b ≤ 57) :
    ∀ a : Nat,
      List.foldl (fun acc b => acc.bind (fun x => (digitVal b).map (fun d => x * 10 + d)))
        (some a) l =
      some (List.foldl (fun x b => x * 10 + (b - 48)) a l) := by
  induction l with
  | nil => intro a; rfl
  | cons b t ih =>
    intro a
    have hb := hd b (List.mem_cons_self b t)
    have hdig : digitVal b = some (b - 48) := by
      unfold digitVal
      rw [if_pos hb]
    simp only [List.foldl_cons, Option.some_bind, hdig, Option.map_some']
    exact ih (fun x hx => hd x (List.mem_cons_of_mem b hx)) (a * 10 + (b - 48))

theorem parseDecimal_eq (l : List Nat) (hne : l ≠ []) (hd : ∀ b ∈ l, 48 ≤ b ∧ b ≤ 57) :
    parseDecimal l = some (List.foldl (fun x b => x * 10 + (b - 48)) 0 l) := by
  unfold parseDecimal
  rw [if_neg hne]
  exact parseDecimal_foldl l hd 0

theorem decBytesAux_digits :
    ∀ (fuel n : Nat), ∀ b ∈ decBytesAux fuel n, 48 ≤ b ∧ b ≤ 57 := by
  intro fuel
  induction fuel with
  | zero => intro n b hb; simp [decBytesAux] at hb
  | succ fuel ih =>
    intro n b hb
    cases n with
    | zero => simp [decBytesAux] at hb
    | succ m =>
      simp only [decBytesAux, List.mem_cons] at hb
      rcases hb with hb | hb
      · subst hb
        constructor
        · omega
        · have : (m + 1) % 10 < 10 := Nat.mod_lt _ (by omega)
          omega
      · exact ih _ b hb

theorem decBytesAux_value (fuel : Nat) :
    ∀ n, n ≤ fuel →
      List.foldl (fun x b => x * 10 + (b - 48)) 0 ((decBytesAux fuel n).reverse) = n := by
  induction fuel with
  | zero =>
    intro n hn
    have he : n = 0 := Nat.le_zero.mp hn
    subst he
    rfl
  | succ fuel ih =>
    intro n hn
    cases n with
    | zero => rfl
    | succ m =>
      show List.foldl _ 0 ((((m + 1) % 10 + 48) :: decBytesAux fuel ((m + 1) / 10)).reverse) = m + 1
      rw [List.reverse_cons, List.foldl_append]
      have hdiv : (m + 1) / 10 ≤ fuel := by
        have h1 : (m + 1) / 10 < m + 1 := Nat.div_lt_self (by omega) (by omega)
        omega
      rw [ih _ hdiv]
      simp only [List.foldl_cons, List.foldl_nil]
      have hmod : (m + 1) % 10 + 48 - 48 = (m + 1) % 10 := by omega
      rw [hmod]
      have := Nat.div_add_mod (m + 1) 10
      omega

theorem decBytesAux_length (fuel : Nat) :
    ∀ n k, n ≤ fuel → n < 10 ^ k → (decBytesAux fuel n).length ≤ k := by
  induction fuel with
  | zero =>
    intro n k hn _
    have he : n = 0 := Nat.le_zero.mp hn
    subst he
    simp [decBytesAux]
  | succ fuel ih =>
    intro n k hn hk
    cases n with
    | zero => simp [decBytesAux]
    | succ m =>
      cases k with
      | zero => omega
      | succ k =>
        show (((m + 1) % 10 + 48) :: decBytesAux fuel ((m + 1) / 10)).length ≤ k + 1
        simp only [List.length_cons]
        have hdiv : (m + 1) / 10 ≤ fuel := by
          have h1 : (m + 1) / 10 < m + 1 := Nat.div_lt_self (by omega) (by omega)
          omega
        have hbound : (m + 1) / 10 < 10 ^ k := by
          rw [Nat.div_lt_iff_lt_mul (by omega)]
          calc m + 1 < 10 ^ (k + 1) := hk
          _ = 10 ^ k * 10 := by ring
        have := ih ((m + 1) / 10) k hdiv hbound
        omega

theorem decBytes_digits (n : Nat) : ∀ b ∈ decBytes n, 48 ≤ b ∧ b ≤ 57 := by
  intro b hb
  unfold decBytes at hb
  by_cases hn : n = 0
  · rw [if_pos hn] at hb
    simp at hb
    omega
  · rw [if_neg hn] at hb
    rw [List.mem_reverse] at hb
    exact decBytesAux_digits n n b hb

theorem decBytes_ne_nil (n : Nat) : decBytes n ≠ [] := by
  unfold decBytes
  by_cases hn : n = 0
  · rw [if_pos hn]; simp
  · rw [if_neg hn]
    intro hc
    have hz : decBytesAux n n = [] := by
      have := congrArg List.reverse hc
      simpa using this
    have := decBytesAux_value n n (Nat.le_refl n)
    rw [hz] at this
    simp at this
    exact hn this.symm

theorem parseDecimal_decBytes (n : Nat) : parseDecimal (decBytes n) = some n := by
  rw [parseDecimal_eq (decBytes n) (decBytes_ne_nil n) (decBytes_digits n)]
  unfold decBytes
  by_cases hn : n = 0
  · rw [if_pos hn]; subst hn; rfl
  · rw [if_neg hn]
    rw [decBytesAux_value n n (Nat.le_refl n)]

theorem decBytes_length_le (n k : Nat) (hk : 1 ≤ k) (h : n < 10 ^ k) :
    (decBytes n).length ≤ k := by
  unfold decBytes
  by_cases hn : n = 0
  · rw [if_pos hn]; simpa using hk
  · rw [if_neg hn]
    rw [List.length_reverse]
    exact decBytesAux_length n n k (Nat.le_refl n) h

theorem decBytes_length_pos (n : Nat) : 1 ≤ (decBytes n).length := by
  have := decBytes_ne_nil n
  cases he : decBytes n with
  | nil => exact absurd he this
  | cons a t => simp

/-! Lemmas about the demultiplexing loop and block decoding. -/

theorem dictSet_append (d : List (Nat × α)) (k : Nat) (v : α) (h : ∀ p ∈ d, p.1 ≠ k) :
    dictSet d k v = d ++ [(k, v)] := by
  unfold dictSet
  rw [if_neg]
  intro hc
  rw [List.any_eq_true] at hc
  obtain ⟨p, hp, he⟩ := hc
  exact h p hp (by simpa using he)

theorem demuxLoop_append (fmt : SampleType) (rest : List Nat) (dl n : Nat) :
    ∀ (l : List Nat) (i : Nat) (acc : List (Nat × List Int)),
      l.Nodup → (∀ p ∈ acc, p.1 ∉ l) →
      demuxLoop fmt rest dl n i l acc = acc ++ demuxSpec fmt rest dl n i l := by
  intro l
  induction l with
  | nil => intro i acc _ _; simp [demuxLoop, demuxSpec]
  | cons c tl ih =>
    intro i acc hnd hacc
    show demuxLoop fmt rest dl n (i + 1) tl
        (dictSet acc c ((pySlice rest i dl n).map fmt.decode)) = _
    rw [dictSet_append _ _ _ (by
      intro p hp he
      exact hacc p hp (by rw [he]; exact List.mem_cons_self c tl))]
    rw [ih (i + 1) _ (List.nodup_cons.mp hnd).2 (by
      intro p hp
      rcases List.mem_append.mp hp with hp | hp
      · exact fun hmem => hacc p hp (List.mem_cons_of_mem c hmem)
      · simp only [List.mem_singleton] at hp
        rw [hp]
        exact (List.nodup_cons.mp hnd).1)]
    simp [demuxSpec]

theorem demuxSpec_length (fmt : SampleType) (rest : List Nat) (dl n : Nat) :
    ∀ (l : List Nat) (i : Nat), (demuxSpec fmt rest dl n i l).length = l.length := by
  intro l
  induction l with
  | nil => intro i; rfl
  | cons c tl ih => intro i; simp only [demuxSpec, List.length_cons, ih]

theorem demuxSpec_getElem? (fmt : SampleType) (rest : List Nat) (dl n : Nat) :
    ∀ (l : List Nat) (i j : Nat),
      (demuxSpec fmt rest dl n i l)[j]? =
        (l[j]?).map (fun c => (c, (pySlice rest (i + j) dl n).map fmt.decode)) := by
  intro l
  induction l with
  | nil => intro i j; simp [demuxSpec]
  | cons c tl ih =>
    intro i j
    cases j with
    | zero => simp [demuxSpec]
    | succ j =>
      have hunf : demuxSpec fmt rest dl n i (c :: tl) =
          (c, (pySlice rest i dl n).map fmt.decode) :: demuxSpec fmt rest dl n (i + 1) tl := rfl
      rw [hunf, List.getElem?_cons_succ, List.getElem?_cons_succ, ih (i + 1) j]
      have harith : i + 1 + j = i + (j + 1) := by omega
      rw [harith]

/-- Decoding a well-framed block: header byte, length-of-length digit,
decimal length field, then the declared number of payload bytes (here:
`tail`, whose prefix of length `dl` is the payload). -/
theorem parse_header (fmt : SampleType) (channels : List Nat) (hne : channels ≠ [])
    (dl : Nat) (tail : List Nat) (hlen : (decBytes dl).length ≤ 9) :
    parse_waveform_string fmt channels
        (35 :: (48 + (decBytes dl).length) :: (decBytes dl ++ tail)) =
      some (demuxLoop fmt tail dl channels.length 0 channels []) := by
  unfold parse_waveform_string
  rw [if_neg (by simp [hne])]
  have h1 : (35 :: (48 + (decBytes dl).length) :: (decBytes dl ++ tail))[1]? =
      some (48 + (decBytes dl).length) := by simp
  have hdig : digitVal (48 + (decBytes dl).length) = some (decBytes dl).length := by
    unfold digitVal
    rw [if_pos (by omega)]
    congr 1
    omega
  have hc2 : (2 : Nat) + (decBytes dl).length = (decBytes dl).length + 2 := by omega
  have htake : ((35 :: (48 + (decBytes dl).length) :: (decBytes dl ++ tail)).take
      (2 + (decBytes dl).length)).drop 2 = decBytes dl := by
    rw [hc2]
    show (decBytes dl ++ tail).take (decBytes dl).length = decBytes dl
    exact List.take_left _ _
  have hdrop : (35 :: (48 + (decBytes dl).length) :: (decBytes dl ++ tail)).drop
      (2 + (decBytes dl).length) = tail := by
    rw [hc2]
    show (decBytes dl ++ tail).drop (decBytes dl).length = tail
    exact List.drop_left _ _
  simp only [h1, Option.some_bind, hdig]
  rw [htake, hdrop, parseDecimal_decBytes, Option.map_some']

/-- Decoding an encoded block (with possible trailing garbage) for a
duplicate-free channel list yields the positional demultiplexing of the
payload. -/
theorem parse_encode (fmt : SampleType) (channels payload extra : List Nat)
    (hne : channels ≠ []) (hnd : channels.Nodup) (hL : payload.length < 10 ^ 9) :
    parse_waveform_string fmt channels (encodeBlock payload ++ extra) =
      some (demuxSpec fmt payload payload.length channels.length 0 channels) := by
  have hlen : (decBytes payload.length).length ≤ 9 :=
    decBytes_length_le _ 9 (by omega) hL
  have hshape : encodeBlock payload ++ extra =
      35 :: (48 + (decBytes payload.length).length) ::
        (decBytes payload.length ++ (payload ++ extra)) := by
    simp [encodeBlock]
  rw [hshape, parse_header fmt channels hne payload.length (payload ++ extra) hlen]
  rw [demuxLoop_append fmt _ _ _ channels 0 [] hnd (by simp)]
  rw [List.nil_append]
  congr 1
  have hcongr : ∀ (l : List Nat) (i : Nat),
      demuxSpec fmt (payload ++ extra) payload.length channels.length i l =
        demuxSpec fmt payload payload.length channels.length i l := by
    intro l
    induction l with
    | nil => intro i; rfl
    | cons c tl ih =>
      intro i
      simp only [demuxSpec, pySlice_append_stop, ih]
  exact hcongr channels 0

/-- Decoding an encoded block for a single channel returns exactly the
payload bytes (for the `uint8` dtype, each byte is its own sample). -/
theorem parse_encode_single (c : Nat) (payload extra : List Nat)
    (hL : payload.length < 10 ^ 9) :
    parse_waveform_string SampleType.uint8 [c] (encodeBlock payload ++ extra) =
      some [(c, payload.map Int.ofNat)] := by
  rw [parse_encode SampleType.uint8 [c] payload extra (by simp) (by simp) hL]
  show some [(c, (pySlice payload 0 payload.length 1).map SampleType.uint8.decode)] = _
  rw [pySlice_full]
  rfl

/-! Lemmas about the per-channel (RTM) layout. -/

theorem zip_map_fst : ∀ (l : List Nat) (l' : List (List Nat)),
    (l.zip l').map Prod.fst = l.take l'.length := by
  intro l
  induction l with
  | nil => intro l'; simp
  | cons a t ih =>
    intro l'
    cases l' with
    | nil => simp
    | cons b u =>
      show (a, b).1 :: (t.zip u).map Prod.fst = List.take (u.length + 1) (a :: t)
      rw [ih u]
      rfl

theorem RTMLoop_append :
    ∀ (q : List (Nat × List Nat)) (acc : List (Nat × List Int)),
      (q.map Prod.fst).Nodup → (∀ p ∈ acc, p.1 ∉ q.map Prod.fst) →
      (∀ r ∈ q, r.2.length < 10 ^ 9) →
      RTMLoop (q.map (fun r => (r.1, encodeBlock r.2))) acc =
        some (acc ++ q.map (fun r => (r.1, r.2.map Int.ofNat))) := by
  intro q
  induction q with
  | nil => intro acc _ _ _; simp [RTMLoop]
  | cons r tl ih =>
    intro acc hnd hacc hlen
    obtain ⟨c, p⟩ := r
    simp only [List.map_cons] at hnd hacc
    have hsub : parse_waveform_string SampleType.uint8 [c] (encodeBlock p) =
        some [(c, p.map Int.ofNat)] := by
      have := parse_encode_single c p [] (hlen (c, p) (List.mem_cons_self _ _))
      rwa [List.append_nil] at this
    show (parse_waveform_string SampleType.uint8 [c] (encodeBlock p)).bind _ = _
    rw [hsub, Option.some_bind]
    have hupd : dictUpdate acc [(c, p.map Int.ofNat)] = acc ++ [(c, p.map Int.ofNat)] := by
      show dictSet acc c (p.map Int.ofNat) = _
      exact dictSet_append _ _ _ (by
        intro pp hpp he
        exact hacc pp hpp (by rw [he]; exact List.mem_cons_self _ _))
    rw [hupd]
    rw [ih (acc ++ [(c, p.map Int.ofNat)]) (List.nodup_cons.mp hnd).2 (by
        intro pp hpp
        rcases List.mem_append.mp hpp with hp | hp
        · exact fun hmem => hacc pp hp (List.mem_cons_of_mem c hmem)
        · simp only [List.mem_singleton] at hp
          rw [hp]
          exact (List.nodup_cons.mp hnd).1)
      (fun rr hrr => hlen rr (List.mem_cons_of_mem _ hrr))]
    simp

/-! Claim theorems: demultiplexing and block decoding. -/

/-- C1, counterexample: with channels `[1, 2]` and a 3-byte payload the
channel at position 0 receives 2 samples, not `floor(3 / 2) = 1` — the
last partial interleaving group is not dropped. -/
theorem C1_strided_counterexample :
    parse_waveform_string SampleType.uint8 [1, 2] (encodeBlock [10, 20, 30]) =
      some [(1, [10, 30]), (2, [20])] ∧ ¬ ((2 : Nat) = 3 / 2) := by decide

/-- C1, amended: fused demultiplexing assigns the channel at
request-order position `i` the full strided subsequence
`payload[i :: N]` — which has `ceil((L - i) / N)` elements, one more
than `floor(L / N)` for the first `L mod N` positions — and
interleaving the per-channel sequences back at stride `N` reconstructs
the entire payload of length `L`, not only a prefix of length
`N * floor(L / N)`. -/
theorem C1_fused_demux_amended (fmt : SampleType) (channels payload : List Nat)
    (hne : channels ≠ []) (hnd : channels.Nodup) (hL : payload.length < 10 ^ 9) :
    ∃ R, parse_waveform_string fmt channels (encodeBlock payload) = some R ∧
      R.length = channels.length ∧
      (∀ i, R[i]? = (channels[i]?).map (fun c =>
        (c, (pySlice payload i payload.length channels.length).map fmt.decode))) ∧
      (∀ i, ((pySlice payload i payload.length channels.length).map fmt.decode).length =
        (payload.length - i + channels.length - 1) / channels.length) ∧
      (∀ j, j < payload.length →
        ∃ c samples, R[j % channels.length]? = some (c, samples) ∧
          samples[j / channels.length]? = (payload[j]?).map fmt.decode) := by
  have hN : 1 ≤ channels.length := by
    cases channels with
    | nil => exact absurd rfl hne
    | cons a t => simp
  have hparse := parse_encode fmt channels payload [] hne hnd hL
  rw [List.append_nil] at hparse
  refine ⟨_, hparse, demuxSpec_length fmt payload payload.length channels.length channels 0,
    ?_, ?_, ?_⟩
  · intro i
    rw [demuxSpec_getElem? fmt payload payload.length channels.length channels 0 i]
    simp only [Nat.zero_add]
  · intro i
    rw [List.length_map]
    exact pySlice_length payload i channels.length hN
  · intro j hj
    have hjN : j % channels.length < channels.length := Nat.mod_lt _ (by omega)
    have hc : channels[j % channels.length]? = some channels[j % channels.length] :=
      List.getElem?_eq_some.mpr ⟨hjN, rfl⟩
    refine ⟨channels[j % channels.length],
      (pySlice payload (j % channels.length) payload.length channels.length).map fmt.decode,
      ?_, ?_⟩
    · rw [demuxSpec_getElem? fmt payload payload.length channels.length channels 0
        (j % channels.length), hc]
      simp only [Nat.zero_add, Option.map_some']
    · rw [List.getElem?_map, pySlice_getElem? payload _ channels.length _ hN]
      have h1 := Nat.mod_add_div j channels.length
      have h2 : (j / channels.length) * channels.length =
          channels.length * (j / channels.length) := Nat.mul_comm _ _
      have hidx : j % channels.length + (j / channels.length) * channels.length = j := by
        omega
      rw [hidx]

/-- C3, counterexample: a block declaring 5 payload bytes but carrying
only 3 is decoded without any error — the channel simply receives the 3
available bytes, where the claim requires a framing failure. -/
theorem C3_short_input_counterexample :
    parse_waveform_string SampleType.uint8 [1] [35, 49, 53, 97, 98, 99] =
      some [(1, [97, 98, 99])] ∧ parseDecimal [53] = some 5 ∧ (3 : Nat) < 5 := by decide

/-- C3, amended: decoding reads the length-of-length digit at offset 1,
parses the following characters as the decimal payload length, keeps
exactly the declared number of bytes and discards anything beyond
(e.g. a trailing terminator), and fails when the length-of-length digit
or the declared-length field is non-numeric; but when fewer bytes
remain than declared it does not fail — the available bytes are
returned silently. -/
theorem C3_block_decoding_amended :
    (∀ (c : Nat) (payload extra : List Nat), payload.length < 10 ^ 9 →
      parse_waveform_string SampleType.uint8 [c] (encodeBlock payload ++ extra) =
        some [(c, payload.map Int.ofNat)]) ∧
    (∀ (fmt : SampleType) (channels input : List Nat) (b : Nat), channels ≠ [] →
      input[1]? = some b → digitVal b = none →
      parse_waveform_string fmt channels input = none) ∧
    (∀ (fmt : SampleType) (channels input : List Nat) (b dll : Nat), channels ≠ [] →
      input[1]? = some b → digitVal b = some dll →
      parseDecimal ((input.take (2 + dll)).drop 2) = none →
      parse_waveform_string fmt channels input = none) ∧
    (∀ (c dl : Nat) (avail : List Nat), avail.length ≤ dl → (decBytes dl).length ≤ 9 →
      parse_waveform_string SampleType.uint8 [c]
          (35 :: (48 + (decBytes dl).length) :: (decBytes dl ++ avail)) =
        some [(c, avail.map Int.ofNat)]) := by
  refine ⟨fun c payload extra hL => parse_encode_single c payload extra hL, ?_, ?_, ?_⟩
  · intro fmt channels input b hne hb hdig
    have hinput : input ≠ [] := by
      intro he
      rw [he] at hb
      simp at hb
    unfold parse_waveform_string
    rw [if_neg (by simp [hne, hinput])]
    rw [hb, Option.some_bind, hdig, Option.none_bind]
  · intro fmt channels input b dll hne hb hdig hdec
    have hinput : input ≠ [] := by
      intro he
      rw [he] at hb
      simp at hb
    unfold parse_waveform_string
    rw [if_neg (by simp [hne, hinput])]
    rw [hb, Option.some_bind, hdig, Option.some_bind, hdec, Option.map_none']
  · intro c dl avail hle hlen
    rw [parse_header SampleType.uint8 [c] (by simp) dl avail hlen]
    rw [show ([c] : List Nat).length = 1 from rfl]
    rw [demuxLoop_append SampleType.uint8 avail dl 1 [c] 0 [] (by simp) (by simp)]
    rw [List.nil_append]
    show some [(c, (pySlice avail 0 dl 1).map SampleType.uint8.decode)] = _
    rw [pySlice_take, List.take_of_length_le hle]
    rfl

/-- C3, witness: the amended theorem applied at concrete blocks — a
framed 2-byte payload with a trailing terminator byte, a non-numeric
length-of-length digit, a non-numeric length field, and a truncated
payload. -/
theorem C3_block_decoding_amended_witness :
    parse_waveform_string SampleType.uint8 [1] (encodeBlock [7, 8] ++ [10]) =
      some [(1, [7, 8])] ∧
    parse_waveform_string SampleType.uint8 [1] [35, 65, 49] = none ∧
    parse_waveform_string SampleType.uint8 [1] [35, 49, 65, 1] = none ∧
    parse_waveform_string SampleType.uint8 [1] [35, 49, 53, 97] = some [(1, [97])] := by
  refine ⟨?_, ?_, ?_, ?_⟩
  · exact C3_block_decoding_amended.1 1 [7, 8] [10] (by norm_num)
  · exact C3_block_decoding_amended.2.1 SampleType.uint8 [1] [35, 65, 49] 65
      (by simp) (by simp) (by decide)
  · exact C3_block_decoding_amended.2.2.1 SampleType.uint8 [1] [35, 49, 65, 1] 49 1
      (by simp) (by simp) (by decide) (by decide)
  · exact C3_block_decoding_amended.2.2.2 1 5 [97] (by decide) (by decide)

/-- C4: round-trip of the block framing for a single requested channel —
encoding a payload of K raw bytes (marker byte, length-of-length digit,
ASCII decimal length, then the bytes) and decoding the block returns
exactly the original K bytes, for every K in 0, 1, 255, 4096. -/
theorem C4_roundtrip (c : Nat) (payload : List Nat)
    (h : payload.length = 0 ∨ payload.length = 1 ∨ payload.length = 255 ∨
      payload.length = 4096) :
    parse_waveform_string SampleType.uint8 [c] (encodeBlock payload) =
      some [(c, payload.map Int.ofNat)] := by
  have hL : payload.length < 10 ^ 9 := by rcases h with h | h | h | h <;> rw [h] <;> norm_num
  have := parse_encode_single c payload [] hL
  rwa [List.append_nil] at this

/-- C4, witness: the round-trip theorem applied at a concrete one-byte
payload. -/
theorem C4_roundtrip_witness :
    parse_waveform_string SampleType.uint8 [1] (encodeBlock [5]) = some [(1, [5])] :=
  C4_roundtrip 1 [5] (Or.inr (Or.inl rfl))

/-- C5, counterexample: the per-channel layout given 2 requested
channels but a single payload does not fail — `zip` silently truncates
and a partial one-channel mapping is returned, where the claim requires
a channel-count-mismatch error. -/
theorem C5_count_mismatch_counterexample :
    RTM_parse_waveform_string [1, 2] [encodeBlock [7]] = some [(1, [7])] := by decide

/-- C5, amended: the per-channel layout never checks the payload count —
`zip` pairs the requested channels with the supplied payloads and
silently drops the unmatched tail on either side, returning a mapping
for the first `min(#channels, #payloads)` channels. -/
theorem C5_rtm_demux_amended (channels : List Nat) (payloads : List (List Nat))
    (hnd : channels.Nodup) (hlen : ∀ p ∈ payloads, p.length < 10 ^ 9) :
    RTM_parse_waveform_string channels (payloads.map encodeBlock) =
      some ((channels.zip payloads).map (fun q => (q.1, q.2.map Int.ofNat))) := by
  unfold RTM_parse_waveform_string
  rw [List.zip_map_right]
  have hzip : (channels.zip payloads).map (Prod.map id encodeBlock) =
      (channels.zip payloads).map (fun r => (r.1, encodeBlock r.2)) := by
    apply List.map_congr_left
    intro a _
    cases a
    rfl
  rw [hzip]
  rw [RTMLoop_append (channels.zip payloads) [] (by
      rw [zip_map_fst]
      exact List.Nodup.sublist (List.take_sublist _ _) hnd)
    (by simp)
    (by
      intro r hr
      obtain ⟨a, b⟩ := r
      exact hlen b (List.of_mem_zip hr).2)]
  rw [List.nil_append]

/-- C5, witness: the amended theorem applied at two channels with two
concrete framed payloads. -/
theorem C5_rtm_demux_amended_witness :
    RTM_parse_waveform_string [1, 2] (List.map encodeBlock [[7], [8]]) =
      some [(1, [7]), (2, [8])] :=
  C5_rtm_demux_amended [1, 2] [[7], [8]] (by decide) (by decide)

/-! Lemmas about the unit converter. -/

theorem convert_none_none (fmt : SampleType) :
    ∀ d : List (Nat × List Int), convert_waveforms fmt none none d =
      some (d.map (fun p => (p.1, p.2.map (fun v =>
        convertSample (medianOf fmt) (factorOf fmt) 0 ((v : Int) : ℚ))))) := by
  intro d
  induction d with
  | nil => rfl
  | cons p rest ih =>
    obtain ⟨c, data⟩ := p
    show (convert_waveforms fmt none none rest).map
        (fun r => (c, data.map (fun v =>
          convertSample (medianOf fmt) (factorOf fmt) 0 ((v : Int) : ℚ))) :: r) = _
    rw [ih, Option.map_some', List.map_cons]

theorem convert_some_some (fmt : SampleType) (s q : Nat → ℚ) :
    ∀ d : List (Nat × List Int), convert_waveforms fmt (some s) (some q) d =
      some (d.map (fun p => (p.1, p.2.map (fun v =>
        convertSample (medianOf fmt) (factorOf fmt * s p.1) (q p.1 * s p.1)
          ((v : Int) : ℚ))))) := by
  intro d
  induction d with
  | nil => rfl
  | cons p rest ih =>
    obtain ⟨c, data⟩ := p
    show (convert_waveforms fmt (some s) (some q) rest).map
        (fun r => (c, data.map (fun v =>
          convertSample (medianOf fmt) (factorOf fmt * s c) (q c * s c)
            ((v : Int) : ℚ))) :: r) = _
    rw [ih, Option.map_some', List.map_cons]

/-! Claim theorems: unit conversion. -/

/-- C2: with no scales and positions the converter maps each raw sample
to `(raw - (min + max) / 2) * (10 / (max - min))`, sending `raw = min`
to `-5` and `raw = max` to `+5` for both 8-bit domains; with per-channel
scale and position it returns
`(raw - (min + max) / 2) * (10 / (max - min)) * scale - position * scale`;
e.g. scale 2 and position 0 on the unsigned 8-bit domain map the median
raw value to `0` and `raw = 255` to `+10`. -/
theorem C2_convert_formulas (fmt : SampleType) :
    (∀ d, convert_waveforms fmt none none d =
      some (d.map (fun p => (p.1, p.2.map (fun v =>
        (((v : Int) : ℚ) - ((fmt.imax + fmt.imin : Int) : ℚ) / 2) *
          (10 / ((fmt.imax - fmt.imin : Int) : ℚ))))))) ∧
    (∀ s q d, convert_waveforms fmt (some s) (some q) d =
      some (d.map (fun p => (p.1, p.2.map (fun v =>
        (((v : Int) : ℚ) - ((fmt.imax + fmt.imin : Int) : ℚ) / 2) *
          (10 / ((fmt.imax - fmt.imin : Int) : ℚ)) * s p.1 - q p.1 * s p.1))))) ∧
    (convert_waveforms fmt none none [(1, [fmt.imin, fmt.imax])] =
      some [(1, [-5, 5])]) ∧
    (convertSample (medianOf SampleType.uint8) (factorOf SampleType.uint8 * 2) (0 * 2)
        ((255 : ℚ) / 2) = 0 ∧
      convertSample (medianOf SampleType.uint8) (factorOf SampleType.uint8 * 2) (0 * 2)
        255 = 10) := by
  refine ⟨?_, ?_, ?_, ?_, ?_⟩
  · intro d
    rw [convert_none_none]
    congr 1
    apply List.map_congr_left
    intro p _
    congr 1
    apply List.map_congr_left
    intro v _
    unfold convertSample medianOf factorOf
    ring
  · intro s q d
    rw [convert_some_some]
    congr 1
    apply List.map_congr_left
    intro p _
    congr 1
    apply List.map_congr_left
    intro v _
    unfold convertSample medianOf factorOf
    ring
  · rw [convert_none_none]
    cases fmt <;>
      norm_num [convertSample, medianOf, factorOf, SampleType.imin, SampleType.imax]
  · norm_num [convertSample, medianOf, factorOf, SampleType.imin, SampleType.imax]
  · norm_num [convertSample, medianOf, factorOf, SampleType.imin, SampleType.imax]

/-- C10: calling the converter with positions supplied but scales
omitted raises (the position offset is computed as
`positions[channel] * scales[channel]`, subscripting `None`), and no
partial result is returned, for every non-empty data dictionary. -/
theorem C10_positions_without_scales_error (fmt : SampleType)
    (d : List (Nat × List Int)) (q : Nat → ℚ) (h : d ≠ []) :
    convert_waveforms fmt none (some q) d = none := by
  cases d with
  | nil => exact absurd rfl h
  | cons p rest =>
    obtain ⟨c, data⟩ := p
    rfl

/-- C10, witness: the error theorem applied at a one-channel
dictionary. -/
theorem C10_positions_without_scales_error_witness :
    convert_waveforms SampleType.uint8 none (some (fun _ => 1)) [(1, [0])] = none :=
  C10_positions_without_scales_error SampleType.uint8 [(1, [0])] (fun _ => 1) (by decide)

/-! Lemmas about the busy-wait loop. -/

theorem waitBusyLoop_completes (esr : Nat → Nat) (clock : Nat → ℚ) (D : ℚ) :
    ∀ (fuel k m : Nat), k ≤ m → m - k < fuel →
      (∀ j, k ≤ j → j < m → esr j % 2 = 0) → esr m % 2 = 1 →
      (∀ j, k ≤ j → j < m → clock j ≤ D) →
      waitBusyLoop esr clock D fuel k = some (WaitOutcome.completed (m + 1)) := by
  intro fuel
  induction fuel with
  | zero => intro k m _ hf _ _ _; omega
  | succ fuel ih =>
    intro k m hkm hf heven hodd hclock
    rcases Nat.eq_or_lt_of_le hkm with he | hlt
    · subst he
      show (if esr k % 2 = 1 then _ else _) = _
      rw [if_pos hodd]
    · have hk : esr k % 2 = 0 := heven k (Nat.le_refl k) hlt
      show (if esr k % 2 = 1 then _ else _) = _
      rw [if_neg (by omega)]
      rw [if_neg (by
        have := hclock k (Nat.le_refl k) hlt
        intro hc
        exact absurd this (by exact not_le.mpr hc))]
      exact ih (k + 1) m hlt (by omega)
        (fun j h1 h2 => heven j (by omega) h2) hodd
        (fun j h1 h2 => hclock j (by omega) h2)

theorem waitBusyLoop_times_out (esr : Nat → Nat) (clock : Nat → ℚ) (D : ℚ) :
    ∀ (fuel k n : Nat), k ≤ n → n - k < fuel →
      (∀ j, esr j % 2 = 0) → D < clock n →
      ∃ p, p ≤ n + 1 ∧ waitBusyLoop esr clock D fuel k = some (WaitOutcome.timedOut p) := by
  intro fuel
  induction fuel with
  | zero => intro k n _ hf _ _; omega
  | succ fuel ih =>
    intro k n hkn hf heven hlate
    show ∃ p, p ≤ n + 1 ∧ (if esr k % 2 = 1 then _ else _) = _
    rw [if_neg (by have := heven k; omega)]
    by_cases hc : D < clock k
    · refine ⟨k + 1, by omega, ?_⟩
      rw [if_pos hc]
    · have hne : k ≠ n := by
        intro he
        rw [he] at hc
        exact hc hlate
      have h1 := ih (k + 1) n (by omega) (by omega) heven hlate
      obtain ⟨p, hp, hres⟩ := h1
      refine ⟨p, hp, ?_⟩
      rw [if_neg hc]
      exact hres

/-! Claim theorems: synchronization, connection, command formatting. -/

/-- C6: in busy mode the deadline is computed once as the start time
plus the configured instrument timeout (milliseconds over 1000), the
operation-complete bit is the parity of the polled `*ESR?` value, the
wait returns without error at the first poll that reports an odd value
(a source completing at poll index `m` yields `m + 1` polls — at least
3 when `m = 3`), and every unsuccessful poll checks the deadline, so a
source that never completes ends in the acquisition-timeout error as
soon as the clock exceeds the deadline. -/
theorem C6_wait_busy_protocol (esr : Nat → Nat) (clock : Nat → ℚ) (tstart tmo : ℚ) :
    (∀ m fuel, m < fuel → (∀ j, j < m → esr j % 2 = 0) → esr m % 2 = 1 →
      (∀ j, j < m → clock j ≤ waitDeadline tstart tmo) →
      wait_busy esr clock tstart tmo fuel = some (WaitOutcome.completed (m + 1))) ∧
    (∀ n fuel, n < fuel → (∀ j, esr j % 2 = 0) → waitDeadline tstart tmo < clock n →
      ∃ p, p ≤ n + 1 ∧
        wait_busy esr clock tstart tmo fuel = some (WaitOutcome.timedOut p)) := by
  constructor
  · intro m fuel hfuel heven hodd hclock
    exact waitBusyLoop_completes esr clock (waitDeadline tstart tmo) fuel 0 m
      (Nat.zero_le m) (by omega) (fun j _ h2 => heven j h2) hodd
      (fun j _ h2 => hclock j h2)
  · intro n fuel hfuel heven hlate
    exact waitBusyLoop_times_out esr clock (waitDeadline tstart tmo) fuel 0 n
      (Nat.zero_le n) (by omega) heven hlate

/-- C6, witness: a status source completing at the fourth poll makes the
wait succeed after 4 polls, and a source that never completes with a
50 ms timeout ends in the timeout error. -/
theorem C6_wait_busy_protocol_witness :
    wait_busy (fun k => if k < 3 then 0 else 1) (fun k => (k : ℚ)) 0 10000 5 =
      some (WaitOutcome.completed 4) ∧
    ∃ p, p ≤ 2 ∧ wait_busy (fun _ => 0) (fun k => (k : ℚ)) 0 50 5 =
      some (WaitOutcome.timedOut p) := by
  constructor
  · exact (C6_wait_busy_protocol (fun k => if k < 3 then 0 else 1) (fun k => (k : ℚ))
      0 10000).1 3 5 (by omega)
      (fun j hj => by interval_cases j <;> rfl)
      (by norm_num)
      (fun j hj => by interval_cases j <;> norm_num [waitDeadline])
  · exact (C6_wait_busy_protocol (fun _ => 0) (fun k => (k : ℚ)) 0 50).2 1 5 (by omega)
      (fun j => rfl) (by norm_num [waitDeadline])

/-- C7: `connect` is idempotent — a first call from a fresh state issues
exactly one identify handshake and runs the family configuration once,
and a second call reuses the transport handle, does not re-query the
cached firmware version, does not re-run the configuration, and leaves
the state unchanged. -/
theorem C7_connect_idempotent (fw : List Nat) (h : fw ≠ []) :
    (connect fw freshConn).idnCount = 1 ∧
    (connect fw freshConn).configCount = 1 ∧
    connect fw (connect fw freshConn) = connect fw freshConn := by
  obtain ⟨a, t, he⟩ : ∃ a t, fw = a :: t := by
    cases fw with
    | nil => exact absurd rfl h
    | cons a t => exact ⟨a, t, rfl⟩
  subst he
  exact ⟨rfl, rfl, rfl⟩

/-- C7, witness: the idempotence theorem applied at a concrete firmware
version. -/
theorem C7_connect_idempotent_witness :
    (connect [1, 2, 3] freshConn).idnCount = 1 ∧
    (connect [1, 2, 3] freshConn).configCount = 1 ∧
    connect [1, 2, 3] (connect [1, 2, 3] freshConn) = connect [1, 2, 3] freshConn :=
  C7_connect_idempotent [1, 2, 3] (by decide)

/-- C9: `get_channel_range` builds its query with a percent placeholder
passed to `str.format`, so the command sent is the constant string
`CHAN%s:RANGe?` for every channel — the channel number is never
substituted — unlike the offset getter, whose command does depend on
the channel. -/
theorem C9_range_query_constant :
    (∀ channel, get_channel_range_cmd channel = "CHAN%s:RANGe?".toList) ∧
    get_channel_offset_cmd 1 ≠ get_channel_offset_cmd 2 ∧
    get_channel_offset_cmd 3 = "CHAN3:OFFSet?".toList := by
  refine ⟨fun channel => rfl, by decide, by decide⟩

/-! Lemmas about the lock model. -/

theorem SysInv_step {s : Sys} {i : Nat} {e : Ev} {t : Sys}
    (hinv : SysInv s) (hstep : Step s i e t) : SysInv t := by
  obtain ⟨hval, hlock⟩ := hinv
  cases hstep with
  | acq rest hrem hhold =>
    have hi : i < s.rem.length := (List.getElem?_eq_some.mp hrem).1
    have hrest : rest = [Ev.tw, Ev.tr, Ev.rel] ∨ rest = [Ev.tw, Ev.rel] := by
      rcases hval i _ hrem with h | h | h | h
      · simp at h
      · simp [askProg] at h
        exact Or.inl h
      · simp [writeProg] at h
        exact Or.inr h
      · simp [lockedRem] at h
    constructor
    · intro j lj hj
      by_cases hji : j = i
      · subst hji
        rw [List.getElem?_set_self hi] at hj
        obtain rfl := Option.some.inj hj
        rcases hrest with h | h <;> subst h
        · exact Or.inr (Or.inr (Or.inr (Or.inl rfl)))
        · exact Or.inr (Or.inr (Or.inr (Or.inr (Or.inr (Or.inl rfl)))))
      · rw [List.getElem?_set_ne (fun h => hji h.symm)] at hj
        exact hval j lj hj
    · intro j lj hj
      by_cases hji : j = i
      · subst hji
        rw [List.getElem?_set_self hi] at hj
        obtain rfl := Option.some.inj hj
        constructor
        · intro _
          rfl
        · intro _
          rcases hrest with h | h <;> subst h
          · exact Or.inl rfl
          · exact Or.inr (Or.inr (Or.inl rfl))
      · rw [List.getElem?_set_ne (fun h => hji h.symm)] at hj
        constructor
        · intro hl
          have hc := (hlock j lj hj).mp hl
          rw [hhold] at hc
          cases hc
        · intro hh
          exact ((hji (Option.some.inj hh).symm).elim)
  | rel rest hrem hhold =>
    have hi : i < s.rem.length := (List.getElem?_eq_some.mp hrem).1
    have hrest : rest = [] := by
      rcases hval i _ hrem with h | h | h | h
      · simp at h
      · simp [askProg] at h
      · simp [writeProg] at h
      · rcases h with h | h | h | h
        · simp at h
        · simp at h
        · simp at h
        · simpa using h
    constructor
    · intro j lj hj
      by_cases hji : j = i
      · subst hji
        rw [List.getElem?_set_self hi] at hj
        obtain rfl := Option.some.inj hj
        subst hrest
        exact Or.inl rfl
      · rw [List.getElem?_set_ne (fun h => hji h.symm)] at hj
        exact hval j lj hj
    · intro j lj hj
      by_cases hji : j = i
      · subst hji
        rw [List.getElem?_set_self hi] at hj
        obtain rfl := Option.some.inj hj
        subst hrest
        constructor
        · intro hl
          simp [lockedRem] at hl
        · intro hh
          cases hh
      · rw [List.getElem?_set_ne (fun h => hji h.symm)] at hj
        constructor
        · intro hl
          have hc := (hlock j lj hj).mp hl
          rw [hhold] at hc
          exact ((hji (Option.some.inj hc).symm).elim)
        · intro hh
          cases hh
  | tw rest hrem =>
    have hi : i < s.rem.length := (List.getElem?_eq_some.mp hrem).1
    have hlocked : lockedRem (Ev.tw :: rest) := by
      rcases hval i _ hrem with h | h | h | h
      · simp at h
      · simp [askProg] at h
      · simp [writeProg] at h
      · exact h
    have hrest : rest = [Ev.tr, Ev.rel] ∨ rest = [Ev.rel] := by
      rcases hlocked with h | h | h | h
      · left
        simpa using h
      · simp at h
      · right
        simpa using h
      · simp at h
    have hhold : s.holder = some i := (hlock i _ hrem).mp hlocked
    constructor
    · intro j lj hj
      by_cases hji : j = i
      · subst hji
        rw [List.getElem?_set_self hi] at hj
        obtain rfl := Option.some.inj hj
        rcases hrest with h | h <;> subst h
        · exact Or.inr (Or.inr (Or.inr (Or.inr (Or.inl rfl))))
        · exact Or.inr (Or.inr (Or.inr (Or.inr (Or.inr (Or.inr rfl)))))
      · rw [List.getElem?_set_ne (fun h => hji h.symm)] at hj
        exact hval j lj hj
    · intro j lj hj
      by_cases hji : j = i
      · rw [hji] at hj ⊢
        rw [List.getElem?_set_self hi] at hj
        obtain rfl := Option.some.inj hj
        show lockedRem rest ↔ s.holder = some i
        rw [hhold]
        constructor
        · intro _
          rfl
        · intro _
          rcases hrest with h | h <;> subst h
          · exact Or.inr (Or.inl rfl)
          · exact Or.inr (Or.inr (Or.inr rfl))
      · rw [List.getElem?_set_ne (fun h => hji h.symm)] at hj
        exact hlock j lj hj
  | tr rest hrem =>
    have hi : i < s.rem.length := (List.getElem?_eq_some.mp hrem).1
    have hlocked : lockedRem (Ev.tr :: rest) := by
      rcases hval i _ hrem with h | h | h | h
      · simp at h
      · simp [askProg] at h
      · simp [writeProg] at h
      · exact h
    have hrest : rest = [Ev.rel] := by
      rcases hlocked with h | h | h | h
      · simp at h
      · simpa using h
      · simp at h
      · simp at h
    have hhold : s.holder = some i := (hlock i _ hrem).mp hlocked
    constructor
    · intro j lj hj
      by_cases hji : j = i
      · subst hji
        rw [List.getElem?_set_self hi] at hj
        obtain rfl := Option.some.inj hj
        subst hrest
        exact Or.inr (Or.inr (Or.inr (Or.inr (Or.inr (Or.inr rfl)))))
      · rw [List.getElem?_set_ne (fun h => hji h.symm)] at hj
        exact hval j lj hj
    · intro j lj hj
      by_cases hji : j = i
      · rw [hji] at hj ⊢
        rw [List.getElem?_set_self hi] at hj
        obtain rfl := Option.some.inj hj
        subst hrest
        show lockedRem [Ev.rel] ↔ s.holder = some i
        rw [hhold]
        constructor
        · intro _
          rfl
        · intro _
          exact Or.inr (Or.inr (Or.inr rfl))
      · rw [List.getElem?_set_ne (fun h => hji h.symm)] at hj
        exact hlock j lj hj

theorem SysInv_reach (ps : List (List Ev)) (hp : ∀ p ∈ ps, p = askProg ∨ p = writeProg)
    {s : Sys} (hr : Reach ps s) : SysInv s := by
  induction hr with
  | init =>
    constructor
    · intro i li hi
      rcases hp li (List.getElem?_mem hi) with h | h
      · exact Or.inr (Or.inl h)
      · exact Or.inr (Or.inr (Or.inl h))
    · intro i li hi
      constructor
      · intro hl
        exfalso
        rcases hp li (List.getElem?_mem hi) with h | h <;> subst h
        · simp [lockedRem, askProg] at hl
        · simp [lockedRem, writeProg] at hl
      · intro hh
        cases hh
  | step _ hstep ih => exact SysInv_step ih hstep

/-! Claim theorem: lock-based mutual exclusion. -/

/-- C8: every ask/write holds the connection's lock across its transport
events (a write/read pair for a query, a write for a command), so in
any reachable interleaving of such threads, while thread `i` is
mid-exchange — it has issued its transport write and its matching read
is pending — no other thread can take any step at all: in particular no
other thread's transport call can start before `i`'s read completes. -/
theorem C8_transport_mutual_exclusion (ps : List (List Ev))
    (hp : ∀ p ∈ ps, p = askProg ∨ p = writeProg)
    (s : Sys) (hr : Reach ps s) (i : Nat)
    (hmid : s.rem[i]? = some [Ev.tr, Ev.rel])
    (j : Nat) (hij : j ≠ i) :
    ¬ ∃ e t, Step s j e t := by
  have hinv := SysInv_reach ps hp hr
  have hhold : s.holder = some i :=
    (hinv.2 i _ hmid).mp (Or.inr (Or.inl rfl))
  rintro ⟨e, t, hstep⟩
  cases hstep with
  | acq rest hrem hh =>
    rw [hhold] at hh
    cases hh
  | rel rest hrem hh =>
    rw [hhold] at hh
    exact hij (Option.some.inj hh).symm
  | tw rest hrem =>
    have hl : lockedRem (Ev.tw :: rest) := by
      rcases hinv.1 j _ hrem with h | h | h | h
      · simp at h
      · simp [askProg] at h
      · simp [writeProg] at h
      · exact h
    have hc := (hinv.2 j _ hrem).mp hl
    rw [hhold] at hc
    exact hij (Option.some.inj hc).symm
  | tr rest hrem =>
    have hl : lockedRem (Ev.tr :: rest) := by
      rcases hinv.1 j _ hrem with h | h | h | h
      · simp at h
      · simp [askProg] at h
      · simp [writeProg] at h
      · exact h
    have hc := (hinv.2 j _ hrem).mp hl
    rw [hhold] at hc
    exact hij (Option.some.inj hc).symm

/-- C8, witness: two threads both running `ask`; thread 0 has acquired
the lock and written; thread 1 can take no step until thread 0 reads
and releases. -/
theorem C8_transport_mutual_exclusion_witness :
    ¬ ∃ e t, Step ⟨[[Ev.tr, Ev.rel], askProg], some 0⟩ 1 e t := by
  have h1 : Step ⟨[askProg, askProg], none⟩ 0 Ev.acq
      ⟨[[Ev.tw, Ev.tr, Ev.rel], askProg], some 0⟩ :=
    Step.acq ⟨[askProg, askProg], none⟩ 0 [Ev.tw, Ev.tr, Ev.rel] rfl rfl
  have h2 : Step ⟨[[Ev.tw, Ev.tr, Ev.rel], askProg], some 0⟩ 0 Ev.tw
      ⟨[[Ev.tr, Ev.rel], askProg], some 0⟩ :=
    Step.tw ⟨[[Ev.tw, Ev.tr, Ev.rel], askProg], some 0⟩ 0 [Ev.tr, Ev.rel] rfl
  have hr : Reach [askProg, askProg] ⟨[[Ev.tr, Ev.rel], askProg], some 0⟩ :=
    Reach.step (Reach.step Reach.init h1) h2
  exact C8_transport_mutual_exclusion [askProg, askProg]
    (by intro p hp; rcases List.mem_cons.mp hp with h | h
        · exact Or.inl h
        · exact Or.inl (by simpa using h))
    _ hr 0 rfl 1 (by decide)

/-- C1, witness: the amended fused-demultiplexing theorem applied at
two channels and a three-byte payload. -/
theorem C1_fused_demux_amended_witness :
    ∃ R, parse_waveform_string SampleType.uint8 [1, 2] (encodeBlock [10, 20, 30]) = some R ∧
      R.length = 2 ∧
      (∀ i, R[i]? = (([1, 2] : List Nat)[i]?).map (fun c =>
        (c, (pySlice [10, 20, 30] i 3 2).map SampleType.uint8.decode))) ∧
      (∀ i, ((pySlice [10, 20, 30] i 3 2).map SampleType.uint8.decode).length =
        (3 - i + 2 - 1) / 2) ∧
      (∀ j, j < 3 →
        ∃ c samples, R[j % 2]? = some (c, samples) ∧
          samples[j / 2]? = (([10, 20, 30] : List Nat)[j]?).map SampleType.uint8.decode) :=
  C1_fused_demux_amended SampleType.uint8 [1, 2] [10, 20, 30] (by decide) (by decide) (by decide)

/-- C9, witness: the constant-command theorem applied at channel 3. -/
theorem C9_range_query_constant_witness :
    get_channel_range_cmd 3 = "CHAN%s:RANGe?".toList :=
  C9_range_query_constant.1 3
